import Mathlib

/-!
Shallow embedding of `tsp_quantum_annealing.py` (quantum-inspired simulated
annealing for a synthetic TSP instance) and proofs about it.

Modelling conventions:
* A route (tour) is a `List ℕ` of city indices.
* Python floats are modelled by exact rationals `ℚ`; all distances and errors
  computed by the program are exact multiples of `1/2`, so this is faithful.
* The random source (`np.random.RandomState`) is modelled as an oracle: the
  initial shuffled tour is an arbitrary permutation parameter, and each loop
  iteration consumes an `IterOracle` record holding the values the code draws
  from the generator during that iteration.
* `np.exp` is modelled by an arbitrary function parameter `aexp : ℚ → ℚ`
  wherever only the control flow matters; the claims about the value of the
  acceptance probability are stated against `Real.exp` directly.
-/

namespace TSPQA

/-- Embedding of `total_dist(route)`: sum over the `n-1` consecutive pairs of
the asymmetric step cost (`(b-a)*1.0` for an ascending step `a < b`,
`(a-b)*1.5` otherwise). -/
def total_dist : List ℕ → ℚ
  | [] => 0
  | [_] => 0
  | a :: b :: rest =>
      (if a < b then ((b : ℚ) - (a : ℚ)) * 1 else ((a : ℚ) - (b : ℚ)) * (3 / 2))
        + total_dist (b :: rest)

/-- Embedding of `error(route) = total_dist(route) - (len(route) - 1)`. -/
def error (route : List ℕ) : ℚ :=
  total_dist route - ((route.length : ℚ) - 1)

/-- One in-place swap of positions `i` and `j`, as performed inside
`adjacent`: `tmp = result[i]; result[i] = result[j]; result[j] = tmp`.
Both reads happen before the writes, which matches the Python statement order
(the read of `result[j]` occurs before position `i` is overwritten only when
`i ≠ j`, and when `i = j` the net effect is a no-op in both semantics). -/
def swapTwo (l : List ℕ) (i j : ℕ) : List ℕ :=
  (l.set i (l.getD j 0)).set j (l.getD i 0)

/-- Embedding of `adjacent(route, n_swaps, rnd)`: apply the successive random
index-pair swaps drawn from the generator.  The pairs drawn by
`rnd.randint(n)` are supplied as the explicit list `swaps`. -/
def adjacent (route : List ℕ) : List (ℕ × ℕ) → List ℕ
  | [] => route
  | ij :: rest => adjacent (swapTwo route ij.1 ij.2) rest

/-- Embedding of the `index_of` lookup table built at the start of
`my_kendall_tau_dist`: a size-`n` array where slot `p2[i]` is set to `i`
(`for i in range(n): index_of[p2[i]] = i`).  Slots never written keep the
(Python: `None`; here: junk `0`) initial value; the claims only use the table
on permutations, where every slot is written exactly once. -/
def kendallTbl (p2 : List ℕ) : List ℕ :=
  (List.range p2.length).foldl (fun tbl i => tbl.set (p2.getD i 0) i)
    (List.replicate p2.length 0)

/-- Embedding of `my_kendall_tau_dist(p1, p2)`: the raw inversion count `d`
(over pairs `i < j` of positions with `index_of[p1[i]] > index_of[p1[j]]`)
together with the normalized distance `d / (n*(n-1)/2)`. -/
def my_kendall_tau_dist (p1 p2 : List ℕ) : ℕ × ℚ :=
  let n := p1.length
  let index_of := kendallTbl p2
  let d := ((List.range n).map (fun i =>
      ((List.range' (i + 1) (n - (i + 1))).filter
        (fun j => decide (index_of.getD (p1.getD j 0) 0 < index_of.getD (p1.getD i 0) 0))).length)).sum
  (d, (d : ℚ) / ((n : ℚ) * ((n : ℚ) - 1) / 2))

/-- The immutable configuration of `solve_qa`. -/
structure QAParams where
  n_cities : ℕ
  max_iter : ℕ
  start_temperature : ℚ
  alpha : ℚ
  pct_tunnel : ℚ
deriving DecidableEq

/-- The mutable loop state of `solve_qa` (current tour and error, best tour
and error, temperature, iteration counter). -/
structure QAState where
  soln : List ℕ
  err : ℚ
  best_soln : List ℕ
  best_err : ℚ
  curr_temperature : ℚ
  iteration : ℕ
deriving DecidableEq

/-- The random values one loop iteration of `solve_qa` draws from the
generator: the tunneling draw `p = rnd.random()`, the stream of index pairs
from `rnd.randint(n)` (of which `num_swaps` are consumed), and the acceptance
draw `p = rnd.random()`. -/
structure IterOracle where
  p_tunnel : ℚ
  swaps : List (ℕ × ℕ)
  p_accept : ℚ
deriving DecidableEq

/-- The swap count selected inside the loop: on a tunneling draw
(`p < pct_tunnel`), `int(pct_iters_left * n_cities)` floored to a minimum
of `1`; otherwise exactly `1`. -/
def numSwaps (P : QAParams) (s : QAState) (o : IterOracle) : ℕ :=
  let pct_iters_left : ℚ := ((P.max_iter : ℚ) - (s.iteration : ℚ)) / (P.max_iter : ℚ)
  if o.p_tunnel < P.pct_tunnel then
    max (Int.toNat ⌊pct_iters_left * (P.n_cities : ℚ)⌋) 1
  else 1

/-- The candidate route generated by one iteration:
`adj_route = adjacent(soln, num_swaps, rnd)`. -/
def candidate (P : QAParams) (s : QAState) (o : IterOracle) : List ℕ :=
  adjacent s.soln (o.swaps.take (numSwaps P s o))

/-- One full body of the `while` loop of `solve_qa` (excluding the progress
print, which is modelled separately): candidate generation, best-tracking,
acceptance, cooling, and the iteration increment.  `aexp` models `np.exp`. -/
def qaStep (P : QAParams) (aexp : ℚ → ℚ) (s : QAState) (o : IterOracle) : QAState :=
  let adj_route := candidate P s o
  let adj_err := error adj_route
  let best_soln := if adj_err < s.best_err then adj_route else s.best_soln
  let best_err := if adj_err < s.best_err then adj_err else s.best_err
  let soln :=
    if adj_err < s.err then adj_route
    else if o.p_accept < aexp ((s.err - adj_err) / s.curr_temperature) then adj_route
    else s.soln
  let err :=
    if adj_err < s.err then adj_err
    else if o.p_accept < aexp ((s.err - adj_err) / s.curr_temperature) then adj_err
    else s.err
  let curr_temperature :=
    if s.curr_temperature < 1 / 100000 then 1 / 100000 else s.curr_temperature * P.alpha
  ⟨soln, err, best_soln, best_err, curr_temperature, s.iteration + 1⟩

/-- The loop guard of `solve_qa`: `while iteration < max_iter and err > 0.0`. -/
def loopCond (P : QAParams) (s : QAState) : Prop :=
  s.iteration < P.max_iter ∧ 0 < s.err

instance (P : QAParams) (s : QAState) : Decidable (loopCond P s) := by
  unfold loopCond; infer_instance

/-- The loop of `solve_qa`, run from state `s` with one oracle record per
iteration.  The guard is checked at loop-top exactly as in the source; since
the counter increases by one per iteration, a list of at least
`max_iter - s.iteration` oracles is enough to drive the loop to termination. -/
def runFrom (P : QAParams) (aexp : ℚ → ℚ) (s : QAState) : List IterOracle → QAState
  | [] => s
  | o :: os => if loopCond P s then runFrom P aexp (qaStep P aexp s o) os else s

/-- The state of `solve_qa` just before the loop: the shuffled tour `tour0`
with its error as both current and best, the start temperature, and
iteration `0`. -/
def initState (P : QAParams) (tour0 : List ℕ) : QAState :=
  ⟨tour0, error tour0, tour0, error tour0, P.start_temperature, 0⟩

/-- Embedding of `solve_qa`: run the loop and return, as the source does,
only `best_soln`. -/
def solve_qa (P : QAParams) (aexp : ℚ → ℚ) (tour0 : List ℕ) (os : List IterOracle) : List ℕ :=
  (runFrom P aexp (initState P tour0) os).best_soln

/-- The result `solve_qa` is described as producing by the specification
("either terminal state returns the best tour and best error recorded"):
the pair of the best tour and the best error of the terminal state.  This
definition follows the spec's words, for comparison with `solve_qa` above,
which follows the source (`return best_soln`). -/
def solve_qa_specReturn (P : QAParams) (aexp : ℚ → ℚ) (tour0 : List ℕ)
    (os : List IterOracle) : List ℕ × ℚ :=
  ((runFrom P aexp (initState P tour0) os).best_soln,
   (runFrom P aexp (initState P tour0) os).best_err)

/-- The reporting interval `interval = int(max_iter / 10)`. -/
def reportInterval (P : QAParams) : ℕ := P.max_iter / 10

/-- One loop body including the progress-report check
`if iteration % interval == 0`.  In Python, evaluating `iteration % interval`
raises `ZeroDivisionError` exactly when `interval == 0`; that abnormal
termination is modelled by `none`. -/
def qaStepChecked (P : QAParams) (aexp : ℚ → ℚ) (s : QAState) (o : IterOracle) :
    Option QAState :=
  if reportInterval P = 0 then none else some (qaStep P aexp s o)

/-- The loop of `solve_qa` with the progress-report check included: `none`
models the run dying with `ZeroDivisionError`. -/
def runFromChecked (P : QAParams) (aexp : ℚ → ℚ) (s : QAState) :
    List IterOracle → Option QAState
  | [] => some s
  | o :: os =>
      if loopCond P s then
        (qaStepChecked P aexp s o).bind (fun s2 => runFromChecked P aexp s2 os)
      else some s

/-- Validity of one iteration's oracle: every index pair drawn by
`rnd.randint(n)` is in `[0, n)`. -/
def OracleOK (n : ℕ) (o : IterOracle) : Prop :=
  ∀ ij ∈ o.swaps, ij.1 < n ∧ ij.2 < n

instance (n : ℕ) (o : IterOracle) : Decidable (OracleOK n o) := by
  unfold OracleOK; infer_instance

/-- The inductive invariant tying the loop state together: current and best
tours are permutations, the stored errors are the errors of the stored tours,
and the best error never exceeds the current error. -/
def GoodState (n : ℕ) (s : QAState) : Prop :=
  s.soln.Perm (List.range n) ∧ s.best_soln.Perm (List.range n) ∧
  s.err = error s.soln ∧ s.best_err = error s.best_soln ∧ s.best_err ≤ s.err

/-! ### Permutation preservation of the swap operations -/

theorem getD_cons_set_perm (t : List ℕ) (k a d : ℕ) (h : k < t.length) :
    List.Perm (t.getD k d :: t.set k a) (a :: t) := by
  induction t generalizing k with
  | nil => simp at h
  | cons b s ih =>
    cases k with
    | zero => simpa using List.Perm.swap a b s
    | succ k =>
      have hk : k < s.length := by simpa using h
      have h1 : List.Perm (s.getD k d :: s.set k a) (a :: s) := ih k hk
      have e1 : (b :: s).set (k + 1) a = b :: s.set k a := by simp
      have e2 : (b :: s).getD (k + 1) d = s.getD k d := by simp
      rw [e1, e2]
      exact (List.Perm.swap b (s.getD k d) (s.set k a)).trans
        ((List.Perm.cons b h1).trans (List.Perm.swap a b s))

theorem swapTwo_perm (l : List ℕ) (i j : ℕ) (hi : i < l.length) (hj : j < l.length) :
    List.Perm (swapTwo l i j) l := by
  induction l generalizing i j with
  | nil => simp at hi
  | cons x t ih =>
    cases i with
    | zero =>
      cases j with
      | zero => simp [swapTwo]
      | succ k =>
        have hk : k < t.length := by simpa using hj
        simpa [swapTwo] using getD_cons_set_perm t k x 0 hk
    | succ m =>
      cases j with
      | zero =>
        have hm : m < t.length := by simpa using hi
        simpa [swapTwo] using getD_cons_set_perm t m x 0 hm
      | succ k =>
        have hm : m < t.length := by simpa using hi
        have hk : k < t.length := by simpa using hj
        simpa [swapTwo] using List.Perm.cons x (ih m k hm hk)

theorem swapTwo_length (l : List ℕ) (i j : ℕ) : (swapTwo l i j).length = l.length := by
  simp [swapTwo]

theorem adjacent_perm (swaps : List (ℕ × ℕ)) (route : List ℕ)
    (h : ∀ ij ∈ swaps, ij.1 < route.length ∧ ij.2 < route.length) :
    List.Perm (adjacent route swaps) route := by
  induction swaps generalizing route with
  | nil => simp [adjacent]
  | cons ij rest ih =>
    have h1 := h ij (by simp)
    have hrest : ∀ p ∈ rest,
        p.1 < (swapTwo route ij.1 ij.2).length ∧ p.2 < (swapTwo route ij.1 ij.2).length := by
      intro p hp
      simpa [swapTwo_length] using h p (by simp [hp])
    exact (ih _ hrest).trans (swapTwo_perm route ij.1 ij.2 h1.1 h1.2)

theorem adjacent_perm_range (n : ℕ) (route : List ℕ) (swaps : List (ℕ × ℕ))
    (hr : route.Perm (List.range n)) (h : ∀ ij ∈ swaps, ij.1 < n ∧ ij.2 < n) :
    (adjacent route swaps).Perm (List.range n) := by
  have hlen : route.length = n := by simpa using hr.length_eq
  exact (adjacent_perm swaps route (by simpa [hlen] using h)).trans hr

/-! ### The cost model: lower bound and exact characterization of optimality -/

theorem total_dist_ge (l : List ℕ) (h : List.Chain' (· ≠ ·) l) :
    (l.length : ℚ) - 1 ≤ total_dist l := by
  induction l with
  | nil => simp [total_dist]
  | cons a t ih =>
    cases t with
    | nil => simp [total_dist]
    | cons b r =>
      rw [List.chain'_cons] at h
      have iht := ih h.2
      have hstep : (1 : ℚ) ≤
          (if a < b then ((b : ℚ) - (a : ℚ)) * 1 else ((a : ℚ) - (b : ℚ)) * (3 / 2)) := by
        rcases lt_or_gt_of_ne h.1 with hab | hba
        · have h1 : (a : ℚ) + 1 ≤ (b : ℚ) := by exact_mod_cast Nat.succ_le_of_lt hab
          rw [if_pos hab]; linarith
        · have h1 : (b : ℚ) + 1 ≤ (a : ℚ) := by exact_mod_cast Nat.succ_le_of_lt hba
          rw [if_neg (by omega)]; linarith
      have : total_dist (a :: b :: r) =
          (if a < b then ((b : ℚ) - (a : ℚ)) * 1 else ((a : ℚ) - (b : ℚ)) * (3 / 2))
            + total_dist (b :: r) := rfl
      rw [this]
      have hl : ((a :: b :: r).length : ℚ) = ((b :: r).length : ℚ) + 1 := by
        push_cast [List.length_cons]; ring
      rw [hl]; linarith

theorem total_dist_chain_succ (l : List ℕ) (hl : l ≠ [])
    (h : List.Chain' (fun a b => b = a + 1) l) :
    total_dist l = (l.length : ℚ) - 1 := by
  induction l with
  | nil => exact absurd rfl hl
  | cons a t ih =>
    cases t with
    | nil => simp [total_dist]
    | cons b r =>
      rw [List.chain'_cons] at h
      have iht := ih (by simp) h.2
      have hab : a < b := by omega
      have hb : (b : ℚ) = (a : ℚ) + 1 := by exact_mod_cast congrArg (Nat.cast (R := ℚ)) h.1
      have : total_dist (a :: b :: r) =
          (if a < b then ((b : ℚ) - (a : ℚ)) * 1 else ((a : ℚ) - (b : ℚ)) * (3 / 2))
            + total_dist (b :: r) := rfl
      rw [this, if_pos hab, iht]
      have hl : ((a :: b :: r).length : ℚ) = ((b :: r).length : ℚ) + 1 := by
        push_cast [List.length_cons]; ring
      rw [hl, hb]; ring

theorem chain_succ_of_total_dist_eq (l : List ℕ) (hne : List.Chain' (· ≠ ·) l)
    (he : total_dist l = (l.length : ℚ) - 1) :
    List.Chain' (fun a b => b = a + 1) l := by
  induction l with
  | nil => simp
  | cons a t ih =>
    cases t with
    | nil => simp
    | cons b r =>
      rw [List.chain'_cons] at hne
      have hgt := total_dist_ge (b :: r) hne.2
      have hunf : total_dist (a :: b :: r) =
          (if a < b then ((b : ℚ) - (a : ℚ)) * 1 else ((a : ℚ) - (b : ℚ)) * (3 / 2))
            + total_dist (b :: r) := rfl
      have hl : ((a :: b :: r).length : ℚ) = ((b :: r).length : ℚ) + 1 := by
        push_cast [List.length_cons]; ring
      rw [hunf, hl] at he
      have hstep_le : (if a < b then ((b : ℚ) - (a : ℚ)) * 1 else ((a : ℚ) - (b : ℚ)) * (3 / 2))
          ≤ 1 := by linarith
      have hab : a < b := by
        by_contra hge
        have hba : b < a := by omega
        have h1 : (b : ℚ) + 1 ≤ (a : ℚ) := by exact_mod_cast Nat.succ_le_of_lt hba
        rw [if_neg hge] at hstep_le; linarith
      have h1 : (a : ℚ) + 1 ≤ (b : ℚ) := by exact_mod_cast Nat.succ_le_of_lt hab
      rw [if_pos hab] at hstep_le he
      have hb : (b : ℚ) = (a : ℚ) + 1 := by linarith
      have hbnat : b = a + 1 := by exact_mod_cast hb
      have htail : total_dist (b :: r) = ((b :: r).length : ℚ) - 1 := by linarith
      exact List.chain'_cons.mpr ⟨hbnat, ih hne.2 htail⟩

theorem chain_succ_range' (n s : ℕ) :
    List.Chain' (fun a b => b = a + 1) (List.range' s n) := by
  induction n generalizing s with
  | zero => simp
  | succ m ih =>
    cases m with
    | zero => simp
    | succ k =>
      have : List.range' s (k + 2) = s :: List.range' (s + 1) (k + 1) := rfl
      rw [this]
      exact List.chain'_cons.mpr ⟨by simp [List.range'], ih (s + 1)⟩

theorem chain_succ_eq_range' (l : List ℕ) (h : List.Chain' (fun a b => b = a + 1) l) :
    l = List.range' (l.headD 0) l.length := by
  induction l with
  | nil => simp
  | cons a t ih =>
    cases t with
    | nil => simp [List.range']
    | cons b r =>
      rw [List.chain'_cons] at h
      have iht := ih h.2
      have : List.range' a (r.length + 2) = a :: List.range' (a + 1) (r.length + 1) := rfl
      simp only [List.headD_cons, List.length_cons, this]
      rw [← h.1]
      exact congrArg (a :: ·) (by simpa using iht)

theorem error_nonneg_of_perm (n : ℕ) (t : List ℕ) (h : t.Perm (List.range n)) :
    0 ≤ error t := by
  have hnd : t.Nodup := h.nodup_iff.mpr (List.nodup_range n)
  have := total_dist_ge t hnd.chain'
  simp only [error]; linarith

/-! ### Projections of one loop iteration -/

theorem qaStep_soln (P : QAParams) (aexp : ℚ → ℚ) (s : QAState) (o : IterOracle) :
    (qaStep P aexp s o).soln =
      if error (candidate P s o) < s.err then candidate P s o
      else if o.p_accept < aexp ((s.err - error (candidate P s o)) / s.curr_temperature) then
        candidate P s o
      else s.soln := rfl

theorem qaStep_err (P : QAParams) (aexp : ℚ → ℚ) (s : QAState) (o : IterOracle) :
    (qaStep P aexp s o).err =
      if error (candidate P s o) < s.err then error (candidate P s o)
      else if o.p_accept < aexp ((s.err - error (candidate P s o)) / s.curr_temperature) then
        error (candidate P s o)
      else s.err := rfl

theorem qaStep_best_soln (P : QAParams) (aexp : ℚ → ℚ) (s : QAState) (o : IterOracle) :
    (qaStep P aexp s o).best_soln =
      if error (candidate P s o) < s.best_err then candidate P s o else s.best_soln := rfl

theorem qaStep_best_err (P : QAParams) (aexp : ℚ → ℚ) (s : QAState) (o : IterOracle) :
    (qaStep P aexp s o).best_err =
      if error (candidate P s o) < s.best_err then error (candidate P s o) else s.best_err := rfl

theorem qaStep_temp (P : QAParams) (aexp : ℚ → ℚ) (s : QAState) (o : IterOracle) :
    (qaStep P aexp s o).curr_temperature =
      if s.curr_temperature < 1 / 100000 then 1 / 100000
      else s.curr_temperature * P.alpha := rfl

theorem qaStep_iteration (P : QAParams) (aexp : ℚ → ℚ) (s : QAState) (o : IterOracle) :
    (qaStep P aexp s o).iteration = s.iteration + 1 := rfl

/-! ### A generic induction principle for the loop -/

theorem runFrom_induction (P : QAParams) (aexp : ℚ → ℚ) (Inv : QAState → Prop) :
    ∀ (os : List IterOracle) (s : QAState), Inv s →
      (∀ s2 o, o ∈ os → Inv s2 → Inv (qaStep P aexp s2 o)) →
      Inv (runFrom P aexp s os) := by
  intro os
  induction os with
  | nil => intro s hs _; simpa [runFrom] using hs
  | cons o rest ih =>
    intro s hs hstep
    rw [runFrom]
    split
    · exact ih _ (hstep s o (by simp) hs) (fun s2 o2 ho2 => hstep s2 o2 (by simp [ho2]))
    · exact hs

theorem runFrom_eq_self (P : QAParams) (aexp : ℚ → ℚ) (s : QAState)
    (os : List IterOracle) (h : ¬ loopCond P s) : runFrom P aexp s os = s := by
  cases os with
  | nil => rfl
  | cons o rest => rw [runFrom, if_neg h]

theorem runFrom_terminal (P : QAParams) (aexp : ℚ → ℚ) :
    ∀ (os : List IterOracle) (s : QAState), P.max_iter ≤ s.iteration + os.length →
      ¬ loopCond P (runFrom P aexp s os) := by
  intro os
  induction os with
  | nil =>
    intro s h hc
    rw [runFrom] at hc
    exact absurd hc.1 (by simpa using h)
  | cons o rest ih =>
    intro s h
    rw [runFrom]
    split
    · exact ih _ (by rw [qaStep_iteration]; simp at h ⊢; omega)
    · assumption

theorem error_eq_zero_iff (n : ℕ) (t : List ℕ) (hn : 1 ≤ n) (h : t.Perm (List.range n)) :
    error t = 0 ↔ t = List.range n := by
  have hlen : t.length = n := by simpa using h.length_eq
  have hnd : t.Nodup := h.nodup_iff.mpr (List.nodup_range n)
  constructor
  · intro hz
    have htd : total_dist t = (t.length : ℚ) - 1 := by
      simp only [error] at hz; linarith
    have hchain := chain_succ_of_total_dist_eq t hnd.chain' htd
    have hrng := chain_succ_eq_range' t hchain
    have hhead : t.headD 0 = 0 := by
      have h0t : 0 ∈ t := h.mem_iff.mpr (List.mem_range.mpr hn)
      rw [hrng] at h0t
      have := (List.mem_range'_1.mp h0t).1
      omega
    rw [hrng, hhead, hlen, ← List.range_eq_range']
  · intro ht
    subst ht
    have hne : List.range n ≠ [] := by
      intro hnil
      have := congrArg List.length hnil
      simp at this
      omega
    have := total_dist_chain_succ (List.range n) hne
      (by rw [List.range_eq_range']; exact chain_succ_range' n 0)
    simp only [error, this]; ring

theorem candidate_perm (P : QAParams) (s : QAState) (o : IterOracle)
    (hs : s.soln.Perm (List.range P.n_cities)) (ho : OracleOK P.n_cities o) :
    (candidate P s o).Perm (List.range P.n_cities) := by
  refine adjacent_perm_range P.n_cities s.soln _ hs ?_
  intro ij hij
  exact ho ij (List.take_subset _ _ hij)

theorem qaStep_perm_inv (P : QAParams) (aexp : ℚ → ℚ) (s : QAState) (o : IterOracle)
    (hs : s.soln.Perm (List.range P.n_cities)) (hb : s.best_soln.Perm (List.range P.n_cities))
    (ho : OracleOK P.n_cities o) :
    (qaStep P aexp s o).soln.Perm (List.range P.n_cities) ∧
    (qaStep P aexp s o).best_soln.Perm (List.range P.n_cities) := by
  have hc := candidate_perm P s o hs ho
  constructor
  · rw [qaStep_soln]; split_ifs <;> assumption
  · rw [qaStep_best_soln]; split_ifs <;> assumption

theorem runFrom_best_err_mono (P : QAParams) (aexp : ℚ → ℚ) :
    ∀ (os : List IterOracle) (s : QAState), (runFrom P aexp s os).best_err ≤ s.best_err := by
  intro os
  induction os with
  | nil => intro s; simp [runFrom]
  | cons o rest ih =>
    intro s
    rw [runFrom]
    split
    · refine le_trans (ih _) ?_
      rw [qaStep_best_err]
      split_ifs with h
      · exact le_of_lt h
      · exact le_refl _
    · exact le_refl _

theorem goodState_step (P : QAParams) (aexp : ℚ → ℚ) (s : QAState) (o : IterOracle)
    (ho : OracleOK P.n_cities o) (h : GoodState P.n_cities s) :
    GoodState P.n_cities (qaStep P aexp s o) := by
  obtain ⟨h1, h2, h3, h4, h5⟩ := h
  have hc := candidate_perm P s o h1 ho
  have hb_le_adj : (qaStep P aexp s o).best_err ≤ error (candidate P s o) := by
    rw [qaStep_best_err]
    split_ifs with hcb
    · exact le_refl _
    · exact not_lt.mp hcb
  have hb_le_err : (qaStep P aexp s o).best_err ≤ s.err := by
    rw [qaStep_best_err]
    split_ifs with hcb
    · exact le_trans (le_of_lt hcb) h5
    · exact h5
  refine ⟨?_, ?_, ?_, ?_, ?_⟩
  · rw [qaStep_soln]; split_ifs <;> first | exact hc | exact h1
  · rw [qaStep_best_soln]; split_ifs <;> first | exact hc | exact h2
  · rw [qaStep_err, qaStep_soln]; split_ifs <;> first | rfl | exact h3
  · rw [qaStep_best_err, qaStep_best_soln]; split_ifs <;> first | rfl | exact h4
  · rw [qaStep_err]; split_ifs <;> first | exact hb_le_adj | exact hb_le_err

theorem runFrom_goodState (P : QAParams) (aexp : ℚ → ℚ) (tour0 : List ℕ)
    (os : List IterOracle) (h0 : tour0.Perm (List.range P.n_cities))
    (hos : ∀ o ∈ os, OracleOK P.n_cities o) :
    GoodState P.n_cities (runFrom P aexp (initState P tour0) os) :=
  runFrom_induction P aexp (GoodState P.n_cities) os (initState P tour0)
    ⟨h0, h0, rfl, rfl, le_refl _⟩
    (fun s2 o ho hinv => goodState_step P aexp s2 o (hos o ho) hinv)

/-! ### The Kendall tau diagnostic -/

theorem foldl_set_length (p2 L init : List ℕ) :
    (L.foldl (fun tbl m => tbl.set (p2.getD m 0) m) init).length = init.length := by
  induction L generalizing init with
  | nil => rfl
  | cons a t ih => rw [List.foldl_cons, ih]; simp

theorem getD_set_self (l : List ℕ) (i a : ℕ) (h : i < l.length) :
    (l.set i a).getD i 0 = a := by
  rw [List.getD_eq_getElem _ _ (by simpa using h)]
  simp [List.getElem_set_self]

theorem getD_set_ne (l : List ℕ) (i j a : ℕ) (h : j < l.length) (hne : i ≠ j) :
    (l.set i a).getD j 0 = l.getD j 0 := by
  rw [List.getD_eq_getElem _ _ (by simpa using h), List.getD_eq_getElem _ _ h]
  simp [List.getElem_set_ne (h := hne)]

theorem kendallTbl_aux (p2 : List ℕ) (hnd : p2.Nodup)
    (hv : ∀ j, j < p2.length → p2.getD j 0 < p2.length) :
    ∀ k, k ≤ p2.length → ∀ i, i < k →
      ((List.range k).foldl (fun tbl m => tbl.set (p2.getD m 0) m)
        (List.replicate p2.length 0)).getD (p2.getD i 0) 0 = i := by
  intro k
  induction k with
  | zero => intro _ i hi; omega
  | succ k ih =>
    intro hk i hi
    rw [List.range_succ, List.foldl_append, List.foldl_cons, List.foldl_nil]
    have hTlen : ((List.range k).foldl (fun tbl m => tbl.set (p2.getD m 0) m)
        (List.replicate p2.length 0)).length = p2.length := by
      rw [foldl_set_length]; simp
    by_cases hik : i = k
    · subst hik
      exact getD_set_self _ _ _ (by rw [hTlen]; exact hv i (by omega))
    · have hkb : k < p2.length := by omega
      have hib : i < p2.length := by omega
      have hne : p2.getD k 0 ≠ p2.getD i 0 := by
        intro he
        rw [List.getD_eq_getElem p2 0 hkb, List.getD_eq_getElem p2 0 hib] at he
        exact hik (((List.Nodup.getElem_inj_iff hnd).mp he).symm)
      rw [getD_set_ne _ _ _ _ (by rw [hTlen]; exact hv i (by omega)) hne]
      exact ih (by omega) i (by omega)

theorem kendallTbl_getD (p2 : List ℕ) (hnd : p2.Nodup)
    (hv : ∀ j, j < p2.length → p2.getD j 0 < p2.length)
    (i : ℕ) (hi : i < p2.length) :
    (kendallTbl p2).getD (p2.getD i 0) 0 = i :=
  kendallTbl_aux p2 hnd hv p2.length (le_refl _) i hi

theorem perm_range_getD_lt (n : ℕ) (p : List ℕ) (h : p.Perm (List.range n)) :
    ∀ j, j < p.length → p.getD j 0 < p.length := by
  intro j hj
  have hlen : p.length = n := by simpa using h.length_eq
  have hmem : p.getD j 0 ∈ p := by
    rw [List.getD_eq_getElem _ _ hj]; exact List.getElem_mem hj
  have hr := h.mem_iff.mp hmem
  rw [hlen]
  exact List.mem_range.mp hr

theorem kendall_g_spec (n : ℕ) (p1 p2 : List ℕ)
    (h1 : p1.Perm (List.range n)) (h2 : p2.Perm (List.range n)) (i : ℕ) (hi : i < n) :
    ∃ k, k < n ∧ p2.getD k 0 = p1.getD i 0 ∧
      (kendallTbl p2).getD (p1.getD i 0) 0 = k := by
  have hl1 : p1.length = n := by simpa using h1.length_eq
  have hl2 : p2.length = n := by simpa using h2.length_eq
  have hnd2 : p2.Nodup := h2.nodup_iff.mpr (List.nodup_range n)
  have hmem1 : p1.getD i 0 ∈ p1 := by
    rw [List.getD_eq_getElem _ _ (by omega)]; exact List.getElem_mem (by omega)
  have hmem2 : p1.getD i 0 ∈ p2 := h2.mem_iff.mpr (h1.mem_iff.mp hmem1)
  obtain ⟨k, hk, hpk⟩ := List.mem_iff_getElem.mp hmem2
  have hpkD : p2.getD k 0 = p1.getD i 0 := by
    rw [List.getD_eq_getElem _ _ hk]; exact hpk
  refine ⟨k, by omega, hpkD, ?_⟩
  rw [← hpkD]
  exact kendallTbl_getD p2 hnd2 (perm_range_getD_lt n p2 h2) k hk

theorem kendall_g_inj (n : ℕ) (p1 p2 : List ℕ)
    (h1 : p1.Perm (List.range n)) (h2 : p2.Perm (List.range n)) (i j : ℕ)
    (hi : i < n) (hj : j < n)
    (he : (kendallTbl p2).getD (p1.getD i 0) 0 = (kendallTbl p2).getD (p1.getD j 0) 0) :
    i = j := by
  have hl1 : p1.length = n := by simpa using h1.length_eq
  have hnd1 : p1.Nodup := h1.nodup_iff.mpr (List.nodup_range n)
  obtain ⟨k, hk, hpk, hgk⟩ := kendall_g_spec n p1 p2 h1 h2 i hi
  obtain ⟨k2, hk2, hpk2, hgk2⟩ := kendall_g_spec n p1 p2 h1 h2 j hj
  rw [hgk, hgk2] at he
  subst he
  have hpp : p1.getD i 0 = p1.getD j 0 := by rw [← hpk, ← hpk2]
  have hib : i < p1.length := by omega
  have hjb : j < p1.length := by omega
  rw [List.getD_eq_getElem p1 0 hib, List.getD_eq_getElem p1 0 hjb] at hpp
  exact (List.Nodup.getElem_inj_iff hnd1).mp hpp

theorem kendall_raw_def (p1 p2 : List ℕ) :
    (my_kendall_tau_dist p1 p2).1 =
      ((List.range p1.length).map (fun i =>
        ((List.range' (i + 1) (p1.length - (i + 1))).filter
          (fun j => decide ((kendallTbl p2).getD (p1.getD j 0) 0 <
            (kendallTbl p2).getD (p1.getD i 0) 0))).length)).sum := rfl

theorem kendall_snd_def (p1 p2 : List ℕ) :
    (my_kendall_tau_dist p1 p2).2 =
      ((my_kendall_tau_dist p1 p2).1 : ℚ) /
        ((p1.length : ℚ) * ((p1.length : ℚ) - 1) / 2) := rfl

theorem sum_range_sub_mul_two (N : ℕ) :
    (((List.range N).map (fun i => N - 1 - i)).sum) * 2 = N * (N - 1) := by
  rw [show ((List.range N).map (fun i => N - 1 - i)).sum
      = ∑ i in Finset.range N, (N - 1 - i) from rfl]
  rw [Finset.sum_range_reflect (fun j => j) N]
  exact Finset.sum_range_id_mul_two N

theorem kendall_raw_le (p1 p2 : List ℕ) :
    2 * (my_kendall_tau_dist p1 p2).1 ≤ p1.length * (p1.length - 1) := by
  rw [kendall_raw_def]
  have hle : ((List.range p1.length).map (fun i =>
      ((List.range' (i + 1) (p1.length - (i + 1))).filter
        (fun j => decide ((kendallTbl p2).getD (p1.getD j 0) 0 <
          (kendallTbl p2).getD (p1.getD i 0) 0))).length)).sum ≤
      ((List.range p1.length).map (fun i => p1.length - 1 - i)).sum := by
    apply List.sum_le_sum
    intro i _
    calc ((List.range' (i + 1) (p1.length - (i + 1))).filter
          (fun j => decide ((kendallTbl p2).getD (p1.getD j 0) 0 <
            (kendallTbl p2).getD (p1.getD i 0) 0))).length
        ≤ (List.range' (i + 1) (p1.length - (i + 1))).length :=
          List.length_filter_le _ _
      _ = p1.length - (i + 1) := by simp
      _ = p1.length - 1 - i := by omega
  have hg := sum_range_sub_mul_two p1.length
  omega

theorem kendall_raw_zero_iff (n : ℕ) (p1 p2 : List ℕ)
    (h1 : p1.Perm (List.range n)) (h2 : p2.Perm (List.range n)) :
    (my_kendall_tau_dist p1 p2).1 = 0 ↔ p1 = p2 := by
  have hl1 : p1.length = n := by simpa using h1.length_eq
  have hl2 : p2.length = n := by simpa using h2.length_eq
  have hnd1 : p1.Nodup := h1.nodup_iff.mpr (List.nodup_range n)
  constructor
  · intro hz
    rw [kendall_raw_def] at hz
    have hall := List.sum_eq_zero_iff.mp hz
    have H : ∀ i j, i < j → j < n →
        ¬ ((kendallTbl p2).getD (p1.getD j 0) 0 < (kendallTbl p2).getD (p1.getD i 0) 0) := by
      intro i j hij hj hlt
      have hiz := hall _ (List.mem_map.mpr ⟨i, List.mem_range.mpr (by omega), rfl⟩)
      rw [List.length_eq_zero, List.filter_eq_nil_iff] at hiz
      have hjmem : j ∈ List.range' (i + 1) (p1.length - (i + 1)) :=
        List.mem_range'_1.mpr ⟨by omega, by omega⟩
      have hnot := hiz j hjmem
      simp only [decide_eq_true_eq] at hnot
      exact hnot hlt
    have Hstrict : ∀ i j, i < j → j < n →
        (kendallTbl p2).getD (p1.getD i 0) 0 < (kendallTbl p2).getD (p1.getD j 0) 0 := by
      intro i j hij hj
      refine lt_of_le_of_ne (not_lt.mp (H i j hij hj)) ?_
      intro he
      exact absurd (kendall_g_inj n p1 p2 h1 h2 i j (by omega) hj he) (by omega)
    have Hlow : ∀ i, i < n → i ≤ (kendallTbl p2).getD (p1.getD i 0) 0 := by
      intro i
      induction i with
      | zero => intro _; exact Nat.zero_le _
      | succ i ih =>
        intro hi
        have ha := ih (by omega)
        have hb := Hstrict i (i + 1) (by omega) hi
        omega
    have Hup : ∀ m i, i + m + 1 = n → (kendallTbl p2).getD (p1.getD i 0) 0 ≤ i := by
      intro m
      induction m with
      | zero =>
        intro i hi
        obtain ⟨k, hk, _, hgk⟩ := kendall_g_spec n p1 p2 h1 h2 i (by omega)
        omega
      | succ m ih =>
        intro i hi
        have ha := Hstrict i (i + 1) (by omega) (by omega)
        have hb := ih (i + 1) (by omega)
        omega
    have Hg : ∀ i, i < n → (kendallTbl p2).getD (p1.getD i 0) 0 = i := by
      intro i hi
      have ha := Hup (n - 1 - i) i (by omega)
      have hb := Hlow i hi
      omega
    apply List.ext_getElem (by omega)
    intro i hi1 hi2
    have hi : i < n := by omega
    obtain ⟨k, hk, hpk, hgk⟩ := kendall_g_spec n p1 p2 h1 h2 i hi
    have hki : k = i := by rw [Hg i hi] at hgk; omega
    subst hki
    rw [List.getD_eq_getElem p2 0 hi2, List.getD_eq_getElem p1 0 hi1] at hpk
    exact hpk.symm
  · intro he
    subst he
    rw [kendall_raw_def]
    apply List.sum_eq_zero_iff.mpr
    intro x hx
    obtain ⟨i, hi, hxe⟩ := List.mem_map.mp hx
    have hi' : i < n := by have := List.mem_range.mp hi; omega
    rw [← hxe, List.length_eq_zero, List.filter_eq_nil_iff]
    intro j hj
    have hjr := List.mem_range'_1.mp hj
    have hj' : j < n := by omega
    have hgi := kendallTbl_getD p1 hnd1 (perm_range_getD_lt n p1 h1) i (by omega)
    have hgj := kendallTbl_getD p1 hnd1 (perm_range_getD_lt n p1 h1) j (by omega)
    simp only [decide_eq_true_eq]
    rw [hgi, hgj]
    omega

theorem kendall_raw_reverse (n : ℕ) (p1 : List ℕ) (h1 : p1.Perm (List.range n)) :
    (my_kendall_tau_dist p1 p1.reverse).1 = n * (n - 1) / 2 := by
  have hl1 : p1.length = n := by simpa using h1.length_eq
  have h2 : p1.reverse.Perm (List.range n) := (List.reverse_perm p1).trans h1
  have hnd2 : p1.reverse.Nodup := h2.nodup_iff.mpr (List.nodup_range n)
  have hg : ∀ i, i < n → (kendallTbl p1.reverse).getD (p1.getD i 0) 0 = n - 1 - i := by
    intro i hi
    have hrev : p1.reverse.getD (n - 1 - i) 0 = p1.getD i 0 := by
      rw [List.getD_eq_getElem _ _ (by simp; omega), List.getD_eq_getElem _ _ (by omega)]
      rw [List.getElem_reverse]
      congr 1
      omega
    rw [← hrev]
    exact kendallTbl_getD p1.reverse hnd2 (perm_range_getD_lt n _ h2) (n - 1 - i)
      (by simp; omega)
  rw [kendall_raw_def]
  have hmap : (List.range p1.length).map (fun i =>
      ((List.range' (i + 1) (p1.length - (i + 1))).filter
        (fun j => decide ((kendallTbl p1.reverse).getD (p1.getD j 0) 0 <
          (kendallTbl p1.reverse).getD (p1.getD i 0) 0))).length) =
      (List.range p1.length).map (fun i => p1.length - 1 - i) := by
    apply List.map_congr_left
    intro i hi
    have hi' : i < n := by have := List.mem_range.mp hi; omega
    rw [List.filter_eq_self.mpr ?_]
    · simp; omega
    · intro j hj
      have hjr := List.mem_range'_1.mp hj
      have hj' : j < n := by omega
      have hgi := hg i hi'
      have hgj := hg j hj'
      simp only [decide_eq_true_eq]
      rw [hgi, hgj]
      omega
  rw [hmap]
  have hsum := sum_range_sub_mul_two p1.length
  rw [hl1] at hsum ⊢
  exact (Nat.div_eq_of_eq_mul_left (by omega) hsum.symm).symm

/-! ### Claim theorems -/

/-- C1: for every permutation `t` of `0..n-1` with `n ≥ 2`,
`error(t) = total_dist(t) - (n-1)` is non-negative, and `error(t) = 0` iff
`t` is the ascending identity sequence `0,1,...,n-1`. -/
theorem claim_C1_error_spec (n : ℕ) (t : List ℕ) (hn : 2 ≤ n)
    (h : t.Perm (List.range n)) :
    error t = total_dist t - ((n : ℚ) - 1) ∧ 0 ≤ error t ∧
      (error t = 0 ↔ t = List.range n) := by
  have hlen : t.length = n := by simpa using h.length_eq
  exact ⟨by rw [error, hlen], error_nonneg_of_perm n t h,
    error_eq_zero_iff n t (by omega) h⟩

theorem claim_C1_error_spec_witness :
    2 ≤ 2 ∧ ([1, 0] : List ℕ).Perm (List.range 2) ∧
      (error [1, 0] = total_dist [1, 0] - ((2 : ℚ) - 1) ∧ 0 ≤ error [1, 0] ∧
        (error [1, 0] = 0 ↔ [1, 0] = List.range 2)) :=
  ⟨by decide, by decide, claim_C1_error_spec 2 [1, 0] (by decide) (by decide)⟩

/-- C2: if the initial shuffled tour is a permutation of `0..n-1` and every
index drawn by `rnd.randint(n)` is in `[0, n)`, then every reachable current
tour and best tour is a permutation of `0..n-1`, and so is every candidate
produced by `adjacent` from a permutation. -/
theorem claim_C2_permutation_invariant (P : QAParams) (aexp : ℚ → ℚ) (tour0 : List ℕ)
    (os : List IterOracle) (h0 : tour0.Perm (List.range P.n_cities))
    (hos : ∀ o ∈ os, OracleOK P.n_cities o) :
    ((runFrom P aexp (initState P tour0) os).soln.Perm (List.range P.n_cities) ∧
     (runFrom P aexp (initState P tour0) os).best_soln.Perm (List.range P.n_cities)) ∧
    (∀ s o, s.soln.Perm (List.range P.n_cities) → OracleOK P.n_cities o →
      (candidate P s o).Perm (List.range P.n_cities)) := by
  constructor
  · exact runFrom_induction P aexp
      (fun s => s.soln.Perm (List.range P.n_cities) ∧
        s.best_soln.Perm (List.range P.n_cities))
      os (initState P tour0) ⟨h0, h0⟩
      (fun s2 o ho hinv => qaStep_perm_inv P aexp s2 o hinv.1 hinv.2 (hos o ho))
  · exact fun s o hs ho => candidate_perm P s o hs ho

theorem claim_C2_permutation_invariant_witness :
    ([1, 0] : List ℕ).Perm (List.range 2) ∧
      (((runFrom ⟨2, 1, 1, 1, 0⟩ (fun _ => 0) (initState ⟨2, 1, 1, 1, 0⟩ [1, 0]) []).soln.Perm
          (List.range 2) ∧
        (runFrom ⟨2, 1, 1, 1, 0⟩ (fun _ => 0) (initState ⟨2, 1, 1, 1, 0⟩ [1, 0]) []).best_soln.Perm
          (List.range 2)) ∧
       (∀ s o, s.soln.Perm (List.range 2) → OracleOK 2 o →
         (candidate ⟨2, 1, 1, 1, 0⟩ s o).Perm (List.range 2))) :=
  ⟨by decide, claim_C2_permutation_invariant ⟨2, 1, 1, 1, 0⟩ (fun _ => 0) [1, 0] []
    (by decide) (by simp)⟩

/-- C3: each iteration accepts the candidate unconditionally when its error
is strictly below the current error; otherwise it accepts exactly when the
acceptance draw `p` satisfies
`p < aexp((current_error - candidate_error) / current_temperature)` — with
this exact sign orientation in the exponent argument — and leaves the current
tour and error unchanged when that test fails. -/
theorem claim_C3_acceptance_rule (P : QAParams) (aexp : ℚ → ℚ) (s : QAState) (o : IterOracle) :
    ((qaStep P aexp s o).soln, (qaStep P aexp s o).err) =
      if error (candidate P s o) < s.err then
        (candidate P s o, error (candidate P s o))
      else if o.p_accept < aexp ((s.err - error (candidate P s o)) / s.curr_temperature) then
        (candidate P s o, error (candidate P s o))
      else (s.soln, s.err) := by
  rw [qaStep_soln, qaStep_err]
  split_ifs <;> rfl

/-- C5: the best tour/error pair is replaced exactly when the candidate's
error is strictly below the best error so far; this update is independent of
the acceptance draw, and `best_err` is non-increasing over any run. -/
theorem claim_C5_best_tracking (P : QAParams) (aexp : ℚ → ℚ) (s : QAState) (o : IterOracle)
    (os : List IterOracle) :
    ((qaStep P aexp s o).best_err =
      if error (candidate P s o) < s.best_err then error (candidate P s o) else s.best_err) ∧
    ((qaStep P aexp s o).best_soln =
      if error (candidate P s o) < s.best_err then candidate P s o else s.best_soln) ∧
    (qaStep P aexp s o).best_err ≤ s.best_err ∧
    (∀ q : ℚ,
      (qaStep P aexp s ⟨o.p_tunnel, o.swaps, q⟩).best_err = (qaStep P aexp s o).best_err ∧
      (qaStep P aexp s ⟨o.p_tunnel, o.swaps, q⟩).best_soln = (qaStep P aexp s o).best_soln) ∧
    (runFrom P aexp s os).best_err ≤ s.best_err := by
  refine ⟨qaStep_best_err P aexp s o, qaStep_best_soln P aexp s o, ?_,
    fun q => ⟨rfl, rfl⟩, runFrom_best_err_mono P aexp os s⟩
  rw [qaStep_best_err]
  split_ifs with h
  · exact le_of_lt h
  · exact le_refl _

/-- C4 counterexample: with `start_temperature = 0.00001` and `alpha = 1/2`
(legal schedule parameters), after one iteration the current temperature is
`0.000005 < 0.00001`: the code multiplies first and clamps only on the next
iteration, so the temperature does drop below the claimed floor. -/
theorem claim_C4_counterexample :
    (runFrom ⟨2, 2, 1 / 100000, 1 / 2, 0⟩ (fun _ => 0)
        (initState ⟨2, 2, 1 / 100000, 1 / 2, 0⟩ [1, 0])
        [⟨1 / 2, [(0, 0)], 2⟩]).curr_temperature < 1 / 100000 := by
  norm_num [runFrom, loopCond, initState, qaStep, candidate, numSwaps, adjacent, swapTwo,
    error, total_dist]

/-- C4 (amended): the temperature is multiplied by `alpha` whenever it is at
least `0.00001` and is reset to exactly `0.00001` only on an iteration that
starts below `0.00001`; hence it never drops below
`min start_temperature (alpha * 0.00001)` (for `0 < alpha ≤ 1`), but it can
dip below `0.00001` itself. -/
theorem claim_C4_temperature_floor_amended (P : QAParams) (aexp : ℚ → ℚ) (s : QAState)
    (os : List IterOracle) (o : IterOracle) (h1 : 0 < P.alpha) (h2 : P.alpha ≤ 1) :
    min s.curr_temperature (P.alpha * (1 / 100000)) ≤
      (runFrom P aexp s os).curr_temperature ∧
    (s.curr_temperature < 1 / 100000 →
      (qaStep P aexp s o).curr_temperature = 1 / 100000) := by
  constructor
  · refine runFrom_induction P aexp
      (fun s2 => min s.curr_temperature (P.alpha * (1 / 100000)) ≤ s2.curr_temperature)
      os s (min_le_left _ _) ?_
    intro s2 o2 _ hinv
    rw [qaStep_temp]
    split_ifs with ht
    · refine le_trans (min_le_right _ _) ?_
      linarith
    · push_neg at ht
      refine le_trans (min_le_right _ _) ?_
      have := mul_le_mul_of_nonneg_right ht (le_of_lt h1)
      linarith
  · intro h
    rw [qaStep_temp, if_pos h]

theorem claim_C4_temperature_floor_amended_witness :
    0 < (1 : ℚ) ∧ (1 : ℚ) ≤ 1 ∧
      (min (1 : ℚ) ((1 : ℚ) * (1 / 100000)) ≤
        (runFrom ⟨2, 1, 1, 1, 0⟩ (fun _ => 0) ⟨[1, 0], 1 / 2, [1, 0], 1 / 2, 1, 0⟩
          []).curr_temperature ∧
      ((⟨[1, 0], 1 / 2, [1, 0], 1 / 2, 1, 0⟩ : QAState).curr_temperature < 1 / 100000 →
        (qaStep ⟨2, 1, 1, 1, 0⟩ (fun _ => 0) ⟨[1, 0], 1 / 2, [1, 0], 1 / 2, 1, 0⟩
          ⟨1, [(0, 1)], 0⟩).curr_temperature = 1 / 100000)) :=
  ⟨by decide, by decide,
    claim_C4_temperature_floor_amended ⟨2, 1, 1, 1, 0⟩ (fun _ => 0)
      ⟨[1, 0], 1 / 2, [1, 0], 1 / 2, 1, 0⟩ [] ⟨1, [(0, 1)], 0⟩ (by decide) (by decide)⟩

/-- C6 (amended): with enough oracle input to drive the loop, the run ends in
a state where the iteration counter has reached `max_iter` or the current
error is exactly `0` (the guard is checked at loop-top: a state failing the
guard is returned unchanged), and the solver returns the best tour recorded —
only the best tour, not the best error. -/
theorem claim_C6_termination_amended (P : QAParams) (aexp : ℚ → ℚ) (tour0 : List ℕ)
    (os : List IterOracle) (h0 : tour0.Perm (List.range P.n_cities))
    (hos : ∀ o ∈ os, OracleOK P.n_cities o) (hlen : P.max_iter ≤ os.length) :
    (P.max_iter ≤ (runFrom P aexp (initState P tour0) os).iteration ∨
      (runFrom P aexp (initState P tour0) os).err = 0) ∧
    solve_qa P aexp tour0 os = (runFrom P aexp (initState P tour0) os).best_soln ∧
    (∀ s2 os2, ¬ loopCond P s2 → runFrom P aexp s2 os2 = s2) := by
  have hterm := runFrom_terminal P aexp os (initState P tour0) (by simpa [initState] using hlen)
  have hgood := runFrom_goodState P aexp tour0 os h0 hos
  refine ⟨?_, rfl, fun s2 os2 h => runFrom_eq_self P aexp s2 os2 h⟩
  rw [loopCond, not_and_or] at hterm
  rcases hterm with h | h
  · left; omega
  · right
    have hnonneg : 0 ≤ (runFrom P aexp (initState P tour0) os).err := by
      rw [hgood.2.2.1]
      exact error_nonneg_of_perm P.n_cities _ hgood.1
    push_neg at h
    linarith

theorem claim_C6_termination_amended_witness :
    ([1, 0] : List ℕ).Perm (List.range 2) ∧
      (∀ o ∈ [(⟨1, [(0, 1)], 0⟩ : IterOracle)], OracleOK 2 o) ∧ (1 : ℕ) ≤ 1 ∧
      ((1 ≤ (runFrom ⟨2, 1, 1, 1, 0⟩ (fun _ => 0) (initState ⟨2, 1, 1, 1, 0⟩ [1, 0])
          [⟨1, [(0, 1)], 0⟩]).iteration ∨
        (runFrom ⟨2, 1, 1, 1, 0⟩ (fun _ => 0) (initState ⟨2, 1, 1, 1, 0⟩ [1, 0])
          [⟨1, [(0, 1)], 0⟩]).err = 0) ∧
       solve_qa ⟨2, 1, 1, 1, 0⟩ (fun _ => 0) [1, 0] [⟨1, [(0, 1)], 0⟩] =
         (runFrom ⟨2, 1, 1, 1, 0⟩ (fun _ => 0) (initState ⟨2, 1, 1, 1, 0⟩ [1, 0])
          [⟨1, [(0, 1)], 0⟩]).best_soln ∧
       (∀ s2 os2, ¬ loopCond ⟨2, 1, 1, 1, 0⟩ s2 →
         runFrom ⟨2, 1, 1, 1, 0⟩ (fun _ => 0) s2 os2 = s2)) :=
  ⟨by decide, by decide, by decide,
    claim_C6_termination_amended ⟨2, 1, 1, 1, 0⟩ (fun _ => 0) [1, 0] [⟨1, [(0, 1)], 0⟩]
      (by decide) (by decide) (by decide)⟩

/-- C6 counterexample: at a concrete run the value `solve_qa` returns is the
bare best tour `[1, 0]` (a `List ℕ`), while the return the claim describes —
"both the best tour and the best error" — is the pair `([1, 0], 1/2)`; the
recorded best error `1/2` is not part of what the source returns
(`return best_soln`). -/
theorem claim_C6_counterexample :
    solve_qa ⟨2, 0, 1, 1, 0⟩ (fun _ => 0) [1, 0] [] = [1, 0] ∧
    solve_qa_specReturn ⟨2, 0, 1, 1, 0⟩ (fun _ => 0) [1, 0] [] = ([1, 0], 1 / 2) := by
  constructor
  · rfl
  · norm_num [solve_qa_specReturn, runFrom, initState, error, total_dist]

/-- C7: for permutations `p1, p2` of `0..n-1`, `my_kendall_tau_dist` returns
a raw count in `[0, n(n-1)/2]` together with the normalized value
`raw / (n(n-1)/2)`; the raw count is `0` iff `p1 = p2`, it equals `n(n-1)/2`
for a permutation and its exact reverse, and on `[0,1,2,3]`/`[3,2,1,0]` the
result is `(6, 1.0)`. -/
theorem claim_C7_kendall (n : ℕ) (p1 p2 : List ℕ)
    (h1 : p1.Perm (List.range n)) (h2 : p2.Perm (List.range n)) :
    ((my_kendall_tau_dist p1 p2).1 ≤ n * (n - 1) / 2 ∧
     (my_kendall_tau_dist p1 p2).2 =
       ((my_kendall_tau_dist p1 p2).1 : ℚ) / ((n : ℚ) * ((n : ℚ) - 1) / 2) ∧
     ((my_kendall_tau_dist p1 p2).1 = 0 ↔ p1 = p2) ∧
     (p2 = p1.reverse → (my_kendall_tau_dist p1 p2).1 = n * (n - 1) / 2)) ∧
    my_kendall_tau_dist [0, 1, 2, 3] [3, 2, 1, 0] = (6, 1) := by
  have hl1 : p1.length = n := by simpa using h1.length_eq
  refine ⟨⟨?_, ?_, kendall_raw_zero_iff n p1 p2 h1 h2, ?_⟩, ?_⟩
  · rw [Nat.le_div_iff_mul_le (by omega : 0 < 2)]
    have hb := kendall_raw_le p1 p2
    rw [hl1] at hb
    calc (my_kendall_tau_dist p1 p2).1 * 2
        = 2 * (my_kendall_tau_dist p1 p2).1 := Nat.mul_comm _ _
      _ ≤ n * (n - 1) := hb
  · rw [kendall_snd_def, hl1]
  · intro hrev
    subst hrev
    exact kendall_raw_reverse n p1 h1
  · have hfst : (my_kendall_tau_dist [0, 1, 2, 3] [3, 2, 1, 0]).1 = 6 := by decide
    have hsnd : (my_kendall_tau_dist [0, 1, 2, 3] [3, 2, 1, 0]).2 = 1 := by
      rw [kendall_snd_def, hfst]
      norm_num
    exact Prod.ext hfst hsnd

theorem claim_C7_kendall_witness :
    ([0, 1, 2, 3] : List ℕ).Perm (List.range 4) ∧
    ([3, 2, 1, 0] : List ℕ).Perm (List.range 4) ∧
      (((my_kendall_tau_dist [0, 1, 2, 3] [3, 2, 1, 0]).1 ≤ 4 * (4 - 1) / 2 ∧
        (my_kendall_tau_dist [0, 1, 2, 3] [3, 2, 1, 0]).2 =
          ((my_kendall_tau_dist [0, 1, 2, 3] [3, 2, 1, 0]).1 : ℚ) /
            ((4 : ℚ) * ((4 : ℚ) - 1) / 2) ∧
        ((my_kendall_tau_dist [0, 1, 2, 3] [3, 2, 1, 0]).1 = 0 ↔
          ([0, 1, 2, 3] : List ℕ) = [3, 2, 1, 0]) ∧
        (([3, 2, 1, 0] : List ℕ) = ([0, 1, 2, 3] : List ℕ).reverse →
          (my_kendall_tau_dist [0, 1, 2, 3] [3, 2, 1, 0]).1 = 4 * (4 - 1) / 2)) ∧
       my_kendall_tau_dist [0, 1, 2, 3] [3, 2, 1, 0] = (6, 1)) :=
  ⟨by decide, by decide,
    claim_C7_kendall 4 [0, 1, 2, 3] [3, 2, 1, 0] (by decide) (by decide)⟩

/-- C8 counterexample: the probabilistic branch is taken whenever the
candidate error is not strictly below the current error, which includes
equality (e.g. a no-op swap reproduces the current tour exactly); there
`accept_p = exp(0/T) = 1`, which is not in the open interval `(0, 1)`. -/
theorem claim_C8_counterexample :
    ¬ error ([1, 0] : List ℕ) < error ([1, 0] : List ℕ) ∧
    Real.exp (((error ([1, 0] : List ℕ) - error ([1, 0] : List ℕ) : ℚ) : ℝ) /
      ((100000 : ℚ) : ℝ)) = 1 := by
  refine ⟨lt_irrefl _, ?_⟩
  norm_num

/-- C8 (amended): whenever the probabilistic branch is taken
(`current_error ≤ candidate_error`) and the temperature is positive,
`accept_p = exp((current_error - candidate_error)/T)` lies in `(0, 1]`, and
it lies in the open interval `(0, 1)` exactly when the candidate error is
strictly worse than the current error. -/
theorem claim_C8_accept_p_amended (r c : List ℕ) (T : ℚ) (hrc : error r ≤ error c)
    (hT : 0 < T) :
    0 < Real.exp (((error r - error c : ℚ) : ℝ) / ((T : ℚ) : ℝ)) ∧
    Real.exp (((error r - error c : ℚ) : ℝ) / ((T : ℚ) : ℝ)) ≤ 1 ∧
    (Real.exp (((error r - error c : ℚ) : ℝ) / ((T : ℚ) : ℝ)) < 1 ↔ error r < error c) := by
  have hT' : (0 : ℝ) < ((T : ℚ) : ℝ) := by exact_mod_cast hT
  have harg : ((error r - error c : ℚ) : ℝ) ≤ 0 := by
    have h : error r - error c ≤ 0 := by linarith
    exact_mod_cast h
  refine ⟨Real.exp_pos _, ?_, ?_⟩
  · rw [← Real.exp_zero]
    exact Real.exp_le_exp.mpr (div_nonpos_of_nonpos_of_nonneg harg hT'.le)
  · rw [← Real.exp_zero, Real.exp_lt_exp, div_lt_iff₀ hT', zero_mul]
    have hcast : ((error r - error c : ℚ) : ℝ) < 0 ↔ error r - error c < 0 := by
      exact_mod_cast Iff.rfl
    rw [hcast]
    exact sub_neg

theorem claim_C8_accept_p_amended_witness :
    error ([1, 0] : List ℕ) ≤ error ([1, 0] : List ℕ) ∧ (0 : ℚ) < 1 ∧
      (0 < Real.exp (((error ([1, 0] : List ℕ) - error ([1, 0] : List ℕ) : ℚ) : ℝ) /
          (((1 : ℚ)) : ℝ)) ∧
       Real.exp (((error ([1, 0] : List ℕ) - error ([1, 0] : List ℕ) : ℚ) : ℝ) /
          (((1 : ℚ)) : ℝ)) ≤ 1 ∧
       (Real.exp (((error ([1, 0] : List ℕ) - error ([1, 0] : List ℕ) : ℚ) : ℝ) /
          (((1 : ℚ)) : ℝ)) < 1 ↔ error ([1, 0] : List ℕ) < error ([1, 0] : List ℕ))) :=
  ⟨le_refl _, by decide,
    claim_C8_accept_p_amended [1, 0] [1, 0] 1 (le_refl _) (by decide)⟩

/-- C9: with `max_iter = 1` the reporting interval is `int(1/10) = 0` and the
first loop iteration evaluates `iteration % interval` with a zero interval,
which in Python raises `ZeroDivisionError` (modelled by `none`): the
degenerate interval is not guarded and the run does not complete. -/
theorem claim_C9_crash :
    runFromChecked ⟨2, 1, 100000, 999 / 1000, 1 / 10⟩ (fun _ => 0)
      (initState ⟨2, 1, 100000, 999 / 1000, 1 / 10⟩ [1, 0]) [⟨1 / 2, [(0, 0)], 1 / 2⟩] =
      none := by
  norm_num [runFromChecked, qaStepChecked, reportInterval, loopCond, initState, error,
    total_dist]

/-- C10: at every loop-top, `best_err ≤ err`; consequently, when the loop
exits with current error `0`, the returned best tour also has error `0`. -/
theorem claim_C10_best_le_current (P : QAParams) (aexp : ℚ → ℚ) (tour0 : List ℕ)
    (os : List IterOracle) (h0 : tour0.Perm (List.range P.n_cities))
    (hos : ∀ o ∈ os, OracleOK P.n_cities o) :
    (runFrom P aexp (initState P tour0) os).best_err ≤
      (runFrom P aexp (initState P tour0) os).err ∧
    ((runFrom P aexp (initState P tour0) os).err = 0 →
      error (runFrom P aexp (initState P tour0) os).best_soln = 0 ∧
      (runFrom P aexp (initState P tour0) os).best_err = 0) := by
  have hgood := runFrom_goodState P aexp tour0 os h0 hos
  refine ⟨hgood.2.2.2.2, ?_⟩
  intro hz
  have h1 : (runFrom P aexp (initState P tour0) os).best_err ≤ 0 := by
    have := hgood.2.2.2.2
    rw [hz] at this
    exact this
  have h2 : 0 ≤ error (runFrom P aexp (initState P tour0) os).best_soln :=
    error_nonneg_of_perm P.n_cities _ hgood.2.1
  have h3 := hgood.2.2.2.1
  constructor
  · linarith [h3 ▸ h1]
  · linarith [h3 ▸ h2]

theorem claim_C10_best_le_current_witness :
    ([1, 0] : List ℕ).Perm (List.range 2) ∧
      (∀ o ∈ ([] : List IterOracle), OracleOK 2 o) ∧
      ((runFrom ⟨2, 1, 1, 1, 0⟩ (fun _ => 0) (initState ⟨2, 1, 1, 1, 0⟩ [1, 0]) []).best_err ≤
        (runFrom ⟨2, 1, 1, 1, 0⟩ (fun _ => 0) (initState ⟨2, 1, 1, 1, 0⟩ [1, 0]) []).err ∧
       ((runFrom ⟨2, 1, 1, 1, 0⟩ (fun _ => 0) (initState ⟨2, 1, 1, 1, 0⟩ [1, 0]) []).err = 0 →
        error (runFrom ⟨2, 1, 1, 1, 0⟩ (fun _ => 0)
          (initState ⟨2, 1, 1, 1, 0⟩ [1, 0]) []).best_soln = 0 ∧
        (runFrom ⟨2, 1, 1, 1, 0⟩ (fun _ => 0)
          (initState ⟨2, 1, 1, 1, 0⟩ [1, 0]) []).best_err = 0)) :=
  ⟨by decide, by simp,
    claim_C10_best_le_current ⟨2, 1, 1, 1, 0⟩ (fun _ => 0) [1, 0] [] (by decide) (by simp)⟩

end TSPQA
